import Mathlib

/-!
Verification development for the dense state-vector quantum circuit simulator in
`src/main.rs` (crate root).  The simulator keeps a vector of `2 ^ num_qubits`
complex amplitudes (`Vec<Complex64>`), applies 2×2 and 4×4 gate matrices by
bit-indexed sweeps (`apply_single_qubit_gate`, `apply_two_qubit_gate`), offers a
CPU and a GPU execution path for single-qubit gates, and extracts a normalized
probability table (`Circuit::compute_probabilities`).

Modelling conventions:
* `f64` values are modelled as exact real numbers (`ℝ`); `Complex64` as the
  pair structure `Cx` below.
* Machine-word (`usize`) bit operations are modelled on `ℕ`.  The only
  operation whose two's-complement width matters is `x & !(1 << t)`; for every
  value reachable in the program (`x < 2 ^ 64`) it coincides with the width-free
  bitwise difference `Nat.ldiff x (1 <<< t)`, which is the translation used here.
* Rust indexing `v[i]` panics when out of bounds; all state-vector index
  accesses below are exercised only at in-bounds indices (this is proved where
  relevant), and are modelled with `List.getD _ _ 0`.  The *target-list*
  accesses `targets[0]` / `targets[1]` in `Gate::apply` are modelled by a
  pattern match returning `Option`, with `none` standing for the
  index-out-of-bounds panic.
-/

namespace QSim

/-- `num_complex::Complex64`, with the two `f64` components modelled as exact
real numbers. -/
@[ext]
structure Cx where
  re : ℝ
  im : ℝ

instance : Zero Cx := ⟨⟨0, 0⟩⟩

instance : One Cx := ⟨⟨1, 0⟩⟩

instance : Add Cx := ⟨fun a b => ⟨a.re + b.re, a.im + b.im⟩⟩

instance : Mul Cx := ⟨fun a b => ⟨a.re * b.re - a.im * b.im, a.re * b.im + a.im * b.re⟩⟩

/-- `Complex64::norm_sqr`: squared magnitude `re² + im²`. -/
def Cx.normSqr (z : Cx) : ℝ := z.re * z.re + z.im * z.im

/-- `Complex64 / f64` (used as `*amp / norm.sqrt()` in
`Circuit::compute_probabilities`): componentwise division by a real scalar. -/
noncomputable def Cx.divR (z : Cx) (r : ℝ) : Cx := ⟨z.re / r, z.im / r⟩

/-- Statement vocabulary: bit `t` of the index `i` (the value
`(i >> t) & 1` is proved equal to this arithmetic form). -/
def bitAt (i t : Nat) : Nat := i / 2 ^ t % 2

/-- Statement vocabulary: the index `i` with bit `t` replaced by the bit value
`b` (low bits kept, bit `t` overwritten, high bits kept).  `setBit i t 0` is
"`i` with bit `t` cleared", `setBit i t 1` is "`i` with bit `t` set". -/
def setBit (i t b : Nat) : Nat := i % 2 ^ t + b * 2 ^ t + 2 ^ (t + 1) * (i / 2 ^ (t + 1))

/-- Statement vocabulary: the index `i` with bits `q0` and `q1` replaced by the
2-bit pattern `c` — high bit of `c` goes to position `q0`, low bit to `q1`. -/
def replaceBits (i q0 q1 c : Nat) : Nat := setBit (setBit i q1 (c % 2)) q0 (c / 2)

/-- Gate matrices (`[[Complex64; 2]; 2]` / `[[Complex64; 4]; 4]`) are modelled
as total functions of the row and column index; entries outside the array
bounds (never accessed by the program) default to `0`.
`fn hadamard()` from src/main.rs: entries `±1/√2`. -/
noncomputable def hadamard : Nat → Nat → Cx := fun r c =>
  let scale : ℝ := 1 / Real.sqrt 2
  match r, c with
  | 0, 0 => ⟨scale, 0⟩
  | 0, 1 => ⟨scale, 0⟩
  | 1, 0 => ⟨scale, 0⟩
  | 1, 1 => ⟨-scale, 0⟩
  | _, _ => 0

/-- `fn t_gate()` from src/main.rs: phase entry is the literal approximation
`0.7071 + 0.7071 i`. -/
noncomputable def t_gate : Nat → Nat → Cx := fun r c =>
  match r, c with
  | 0, 0 => ⟨1, 0⟩
  | 1, 1 => ⟨0.7071, 0.7071⟩
  | _, _ => 0

/-- `fn pauli_x()` from src/main.rs. -/
def pauli_x : Nat → Nat → Cx := fun r c =>
  match r, c with
  | 0, 1 => ⟨1, 0⟩
  | 1, 0 => ⟨1, 0⟩
  | _, _ => 0

/-- `fn pauli_y()` from src/main.rs. -/
def pauli_y : Nat → Nat → Cx := fun r c =>
  match r, c with
  | 0, 1 => ⟨0, -1⟩
  | 1, 0 => ⟨0, 1⟩
  | _, _ => 0

/-- `fn pauli_z()` from src/main.rs. -/
def pauli_z : Nat → Nat → Cx := fun r c =>
  match r, c with
  | 0, 0 => ⟨1, 0⟩
  | 1, 1 => ⟨-1, 0⟩
  | _, _ => 0

/-- `fn identity()` from src/main.rs. -/
def identity : Nat → Nat → Cx := fun r c =>
  match r, c with
  | 0, 0 => ⟨1, 0⟩
  | 1, 1 => ⟨1, 0⟩
  | _, _ => 0

/-- `fn cnot()` from src/main.rs: 4×4 permutation matrix with rows
`e0, e1, e3, e2`. -/
def cnot : Nat → Nat → Cx := fun r c =>
  match r, c with
  | 0, 0 => ⟨1, 0⟩
  | 1, 1 => ⟨1, 0⟩
  | 2, 3 => ⟨1, 0⟩
  | 3, 2 => ⟨1, 0⟩
  | _, _ => 0

/-- `fn swap()` from src/main.rs: 4×4 permutation matrix with rows
`e0, e2, e1, e3`. -/
def swap : Nat → Nat → Cx := fun r c =>
  match r, c with
  | 0, 0 => ⟨1, 0⟩
  | 1, 2 => ⟨1, 0⟩
  | 2, 1 => ⟨1, 0⟩
  | 3, 3 => ⟨1, 0⟩
  | _, _ => 0

/-- Modelled from the spec: the real part computed by the CUDA kernel
`apply_single_qubit_gate_kernel`, whose source is not in the repository (only
the compiled `kernels.fatbin` is embedded at src/main.rs line 218).  Per spec
§4.3 and §6 the accelerator computes the functionally identical transform, one
parallel unit per output index, over flat real/imaginary buffers, with the 2×2
gate coefficients flattened row-major. -/
def apply_single_qubit_gate_kernel_re (re_in im_in re_gate im_gate : List ℝ)
    (target i : Nat) : ℝ :=
  let target_bit := (i >>> target) &&& 1
  (List.range 2).foldl (fun acc j =>
    let source := (Nat.ldiff i (1 <<< target)) ||| (j <<< target)
    acc + (re_gate.getD (2 * target_bit + j) 0 * re_in.getD source 0
         - im_gate.getD (2 * target_bit + j) 0 * im_in.getD source 0)) 0

/-- Modelled from the spec: the imaginary part computed by the CUDA kernel
`apply_single_qubit_gate_kernel` (see `apply_single_qubit_gate_kernel_re`). -/
def apply_single_qubit_gate_kernel_im (re_in im_in re_gate im_gate : List ℝ)
    (target i : Nat) : ℝ :=
  let target_bit := (i >>> target) &&& 1
  (List.range 2).foldl (fun acc j =>
    let source := (Nat.ldiff i (1 <<< target)) ||| (j <<< target)
    acc + (re_gate.getD (2 * target_bit + j) 0 * im_in.getD source 0
         + im_gate.getD (2 * target_bit + j) 0 * re_in.getD source 0)) 0

/-- `fn apply_single_qubit_gate` from src/main.rs (lines 187–285).  The
`!use_gpu` branch is the host (CPU) sweep: for each output index `i`,
`new_state[i] = Σ_{j<2} gate[(i>>target)&1][j] · state[(i & !(1<<target)) | (j<<target)]`.
The `use_gpu` branch marshals the state and gate into flat re/im buffers,
runs the kernel for every output index, and reassembles the complex vector
(lines 224–283); the kernel itself is modelled from the spec. -/
noncomputable def apply_single_qubit_gate (state : List Cx) (gate : Nat → Nat → Cx)
    (target num_qubits : Nat) (use_gpu : Bool) : List Cx :=
  if !use_gpu then
    (List.range (1 <<< num_qubits)).map (fun i =>
      let target_bit := (i >>> target) &&& 1
      (List.range 2).foldl (fun acc j =>
        acc + gate target_bit j *
          state.getD ((Nat.ldiff i (1 <<< target)) ||| (j <<< target)) 0) 0)
  else
    let dim := 1 <<< num_qubits
    let re_in := state.map Cx.re
    let im_in := state.map Cx.im
    let re_gate := [(gate 0 0).re, (gate 0 1).re, (gate 1 0).re, (gate 1 1).re]
    let im_gate := [(gate 0 0).im, (gate 0 1).im, (gate 1 0).im, (gate 1 1).im]
    let re_out := (List.range dim).map
      (fun i => apply_single_qubit_gate_kernel_re re_in im_in re_gate im_gate target i)
    let im_out := (List.range dim).map
      (fun i => apply_single_qubit_gate_kernel_im re_in im_in re_gate im_gate target i)
    (List.range dim).map (fun i => ⟨re_out.getD i 0, im_out.getD i 0⟩)

/-- `fn apply_two_qubit_gate` from src/main.rs (lines 287–311): host-only 4×4
sweep.  `control = targets[0]`, `target = targets[1]` (in-bounds by the
instruction invariant, see `Gate.apply`); for each output index `i` the row is
`(control_bit << 1) | target_bit` and the four sources replace both bits by the
2-bit column pattern. -/
def apply_two_qubit_gate (state : List Cx) (gate : Nat → Nat → Cx)
    (targets : List Nat) (num_qubits : Nat) : List Cx :=
  let control := targets.getD 0 0
  let target := targets.getD 1 0
  (List.range (1 <<< num_qubits)).map (fun i =>
    let control_bit := (i >>> control) &&& 1
    let target_bit := (i >>> target) &&& 1
    let index := (control_bit <<< 1) ||| target_bit
    (List.range 4).foldl (fun acc j =>
      acc + gate index j *
        state.getD ((Nat.ldiff (Nat.ldiff i (1 <<< control)) (1 <<< target))
          ||| ((j >>> 1) <<< control) ||| ((j &&& 1) <<< target)) 0) 0)

/-- `enum Gate` from src/main.rs. -/
inductive Gate
  | H
  | T
  | X
  | Y
  | Z
  | ID
  | CNOT
  | SWAP
deriving DecidableEq

/-- Number of target indices `Gate::apply` reads for each variant:
`targets[0]` for the six single-qubit gates (src/main.rs lines 73–78),
`targets[0]` and `targets[1]` for `CNOT`/`SWAP` (lines 297–298). -/
def Gate.arity : Gate → Nat
  | Gate.CNOT => 2
  | Gate.SWAP => 2
  | _ => 1

/-- `Gate::apply` from src/main.rs (lines 64–83).  The unchecked accesses
`targets[0]` / `targets[1]` panic in Rust when the list is too short; that
panic is modelled by the `none` branch of the pattern match. -/
noncomputable def Gate.apply (g : Gate) (state : List Cx) (targets : List Nat)
    (num_qubits : Nat) (use_gpu : Bool) : Option (List Cx) :=
  match g, targets with
  | Gate.H, t0 :: _ => some (apply_single_qubit_gate state hadamard t0 num_qubits use_gpu)
  | Gate.T, t0 :: _ => some (apply_single_qubit_gate state t_gate t0 num_qubits use_gpu)
  | Gate.X, t0 :: _ => some (apply_single_qubit_gate state pauli_x t0 num_qubits use_gpu)
  | Gate.Y, t0 :: _ => some (apply_single_qubit_gate state pauli_y t0 num_qubits use_gpu)
  | Gate.Z, t0 :: _ => some (apply_single_qubit_gate state pauli_z t0 num_qubits use_gpu)
  | Gate.ID, t0 :: _ => some (apply_single_qubit_gate state identity t0 num_qubits use_gpu)
  | Gate.CNOT, _ :: _ :: _ => some (apply_two_qubit_gate state cnot targets num_qubits)
  | Gate.SWAP, _ :: _ :: _ => some (apply_two_qubit_gate state swap targets num_qubits)
  | _, _ => none

/-- `struct Circuit` from src/main.rs. -/
structure Circuit where
  num_qubits : Nat
  gates : List (Gate × List Nat)

/-- The initial state built at the start of `Circuit::run` (src/main.rs lines
31–32): `vec![Complex64::new(0.0, 0.0); 1 << self.num_qubits]` followed by
`state[0] = Complex64::new(1.0, 0.0)`. -/
def initState (num_qubits : Nat) : List Cx :=
  (List.replicate (1 <<< num_qubits) (0 : Cx)).set 0 1

/-- `Circuit::run` from src/main.rs (lines 30–37): build the initial state,
then fold the instruction list left-to-right through `Gate::apply`.  The
result is `none` exactly when some `Gate::apply` call would panic on a
too-short target list. -/
noncomputable def Circuit.run (c : Circuit) (use_gpu : Bool) : Option (List Cx) :=
  c.gates.foldlM
    (fun state gt => Gate.apply gt.1 state gt.2 c.num_qubits use_gpu)
    (initState c.num_qubits)

/-- The local `norm` of `Circuit::compute_probabilities` (src/main.rs line 40):
`state.iter().map(|amp| amp.norm_sqr()).sum()`. -/
def norm_sqr_sum (state : List Cx) : ℝ := (state.map Cx.normSqr).sum

/-- The guard of the degeneracy branch in `Circuit::compute_probabilities`
(src/main.rs line 42): exactly when this holds, the function prints the
"state norm is too small" error (the DegenerateState report of the spec) and
returns the all-zero table. -/
def reportsDegenerateState (state : List Cx) : Prop :=
  |norm_sqr_sum state| < 1e-12

/-- `Circuit::compute_probabilities` from src/main.rs (lines 39–49).  The
`&self` receiver is unused by the Rust code and is omitted. -/
noncomputable def compute_probabilities (state : List Cx) : List ℝ :=
  if |norm_sqr_sum state| < 1e-12 then
    List.replicate state.length 0
  else
    ((state.map (fun amp => amp.divR (Real.sqrt (norm_sqr_sum state)))).map Cx.normSqr)

/-- The qubit-count guard in `fn main` (src/main.rs lines 321–324): `main`
returns early (rejecting the run) exactly when the entered count is `0`.
This check lives in the CLI layer, not in `Circuit`. -/
def main_rejects_qubit_count (num_qubits : Nat) : Bool :=
  num_qubits == 0

/-! Basic lemmas about the complex-pair model. -/

@[simp]
theorem Cx.zero_re : (0 : Cx).re = 0 := rfl

@[simp]
theorem Cx.zero_im : (0 : Cx).im = 0 := rfl

@[simp]
theorem Cx.one_re : (1 : Cx).re = 1 := rfl

@[simp]
theorem Cx.one_im : (1 : Cx).im = 0 := rfl

@[simp]
theorem Cx.add_re (a b : Cx) : (a + b).re = a.re + b.re := rfl

@[simp]
theorem Cx.add_im (a b : Cx) : (a + b).im = a.im + b.im := rfl

@[simp]
theorem Cx.mul_re (a b : Cx) : (a * b).re = a.re * b.re - a.im * b.im := rfl

@[simp]
theorem Cx.mul_im (a b : Cx) : (a * b).im = a.re * b.im + a.im * b.re := rfl

@[simp]
theorem Cx.zero_add (z : Cx) : 0 + z = z := by
  ext <;> simp

@[simp]
theorem Cx.add_zero (z : Cx) : z + 0 = z := by
  ext <;> simp

@[simp]
theorem Cx.zero_mul (z : Cx) : 0 * z = 0 := by
  ext <;> simp

@[simp]
theorem Cx.one_mul (z : Cx) : 1 * z = z := by
  ext <;> simp

theorem Cx.normSqr_nonneg (z : Cx) : 0 ≤ z.normSqr := by
  unfold Cx.normSqr
  nlinarith [sq_nonneg z.re, sq_nonneg z.im]

/-! Bit-manipulation bridge: the machine bit tricks of the source are related
to the arithmetic statement vocabulary `bitAt` / `setBit` / `replaceBits`. -/

theorem testBit_decomp (hi lo b t : Nat) (hlo : lo < 2 ^ t) (hb : b < 2) (j : Nat) :
    (lo + b * 2 ^ t + 2 ^ (t + 1) * hi).testBit j =
      if j < t then lo.testBit j
      else if j = t then decide (b = 1)
      else hi.testBit (j - (t + 1)) := by
  have hpow : (0 : Nat) < 2 ^ t := Nat.pos_pow_of_pos t (by omega)
  have hN : lo + b * 2 ^ t + 2 ^ (t + 1) * hi = lo + 2 ^ t * (b + 2 * hi) := by ring
  have hmod : (lo + b * 2 ^ t + 2 ^ (t + 1) * hi) % 2 ^ t = lo := by
    rw [hN, Nat.add_mul_mod_self_left, Nat.mod_eq_of_lt hlo]
  have hdiv : (lo + b * 2 ^ t + 2 ^ (t + 1) * hi) / 2 ^ t = b + 2 * hi := by
    rw [hN, Nat.add_mul_div_left _ _ hpow, Nat.div_eq_of_lt hlo, Nat.zero_add]
  have hdiv2 : (lo + b * 2 ^ t + 2 ^ (t + 1) * hi) / 2 ^ (t + 1) = hi := by
    have hsmall : lo + b * 2 ^ t < 2 ^ (t + 1) := by
      have : b * 2 ^ t ≤ 1 * 2 ^ t := Nat.mul_le_mul_right _ (by omega)
      rw [pow_succ]
      omega
    have hN2 : lo + b * 2 ^ t + 2 ^ (t + 1) * hi = (lo + b * 2 ^ t) + 2 ^ (t + 1) * hi := by
      ring
    rw [hN2, Nat.add_mul_div_left _ _ (Nat.pos_pow_of_pos _ (by omega)),
      Nat.div_eq_of_lt hsmall, Nat.zero_add]
  rcases lt_trichotomy j t with h | h | h
  · rw [if_pos h]
    have h2 := Nat.testBit_mod_two_pow (lo + b * 2 ^ t + 2 ^ (t + 1) * hi) t j
    rw [hmod] at h2
    rw [h2]
    simp [h]
  · subst h
    rw [if_neg (lt_irrefl _), if_pos rfl, Nat.testBit_to_div_mod, hdiv]
    have : (b + 2 * hi) % 2 = b := by omega
    rw [this]
  · rw [if_neg (by omega), if_neg (by omega)]
    have hj : t + 1 + (j - (t + 1)) = j := by omega
    have hdd : (lo + b * 2 ^ t + 2 ^ (t + 1) * hi) / 2 ^ j = hi / 2 ^ (j - (t + 1)) := by
      calc (lo + b * 2 ^ t + 2 ^ (t + 1) * hi) / 2 ^ j
          = (lo + b * 2 ^ t + 2 ^ (t + 1) * hi) / (2 ^ (t + 1) * 2 ^ (j - (t + 1))) := by
            rw [← pow_add, hj]
        _ = (lo + b * 2 ^ t + 2 ^ (t + 1) * hi) / 2 ^ (t + 1) / 2 ^ (j - (t + 1)) := by
            rw [Nat.div_div_eq_div_mul]
        _ = hi / 2 ^ (j - (t + 1)) := by rw [hdiv2]
    rw [Nat.testBit_to_div_mod, Nat.testBit_to_div_mod, hdd]

theorem bitAt_lt_two (i t : Nat) : bitAt i t < 2 := by
  unfold bitAt
  exact Nat.mod_lt _ (by omega)

theorem testBit_eq_decide_bitAt (x t : Nat) : x.testBit t = decide (bitAt x t = 1) := by
  rw [Nat.testBit_to_div_mod]
  rfl

theorem bitAt_eq_of_testBit {x t b : Nat} (hb : b < 2)
    (h : x.testBit t = decide (b = 1)) : bitAt x t = b := by
  rw [testBit_eq_decide_bitAt] at h
  have h2 : bitAt x t < 2 := bitAt_lt_two x t
  simp only [decide_eq_decide] at h
  by_cases h3 : bitAt x t = 1
  · have := h.mp h3
    omega
  · have : ¬ b = 1 := fun h4 => h3 (h.mpr h4)
    omega

theorem testBit_setBit (x t b : Nat) (hb : b < 2) (j : Nat) :
    (setBit x t b).testBit j = if j = t then decide (b = 1) else x.testBit j := by
  unfold setBit
  rw [testBit_decomp (x / 2 ^ (t + 1)) (x % 2 ^ t) b t
    (Nat.mod_lt _ (Nat.pos_pow_of_pos t (by omega))) hb j]
  rcases lt_trichotomy j t with h | h | h
  · rw [if_pos h, if_neg (by omega), Nat.testBit_mod_two_pow]
    simp [h]
  · subst h
    simp
  · rw [if_neg (by omega), if_neg (by omega), if_neg (by omega),
      ← Nat.shiftRight_eq_div_pow, Nat.testBit_shiftRight]
    congr 1
    omega

theorem ldiff_one_shiftLeft (x t : Nat) : Nat.ldiff x (1 <<< t) = setBit x t 0 := by
  apply Nat.eq_of_testBit_eq
  intro j
  rw [Nat.testBit_ldiff, Nat.one_shiftLeft, Nat.testBit_two_pow,
    testBit_setBit x t 0 (by omega) j]
  by_cases h : j = t
  · simp [h]
  · have ht : t ≠ j := fun h2 => h h2.symm
    simp [h, ht]

theorem setBit_zero_lor_shiftLeft (x t b : Nat) (hb : b < 2) :
    (setBit x t 0) ||| (b <<< t) = setBit x t b := by
  apply Nat.eq_of_testBit_eq
  intro j
  rw [Nat.testBit_lor, Nat.testBit_shiftLeft,
    testBit_setBit x t 0 (by omega) j, testBit_setBit x t b hb j]
  rcases lt_trichotomy j t with h | h | h
  · rw [if_neg (by omega), if_neg (by omega)]
    simp [Nat.not_le.mpr h]
  · subst h
    simp only [if_pos rfl]
    have : b.testBit (j - j) = decide (b = 1) := by
      rw [Nat.sub_self, Nat.testBit_to_div_mod]
      simp only [pow_zero, Nat.div_one]
      rw [Nat.mod_eq_of_lt hb]
    rw [this]
    simp
  · rw [if_neg (by omega), if_neg (by omega)]
    have : b.testBit (j - t) = false :=
      Nat.testBit_eq_false_of_lt (lt_of_lt_of_le hb (by
        calc (2 : Nat) = 2 ^ 1 := (pow_one 2).symm
          _ ≤ 2 ^ (j - t) := Nat.pow_le_pow_right (by omega) (by omega)))
    simp [this]

theorem single_source_eq (x t j : Nat) (hj : j < 2) :
    (Nat.ldiff x (1 <<< t)) ||| (j <<< t) = setBit x t j := by
  rw [ldiff_one_shiftLeft, setBit_zero_lor_shiftLeft x t j hj]

theorem two_source_eq (x q0 q1 j : Nat) (hq : q0 ≠ q1) (hj : j < 4) :
    (Nat.ldiff (Nat.ldiff x (1 <<< q0)) (1 <<< q1))
        ||| ((j >>> 1) <<< q0) ||| ((j &&& 1) <<< q1) =
      replaceBits x q0 q1 j := by
  have hj2 : j >>> 1 = j / 2 := by
    rw [Nat.shiftRight_eq_div_pow, pow_one]
  have hj1 : j &&& 1 = j % 2 := Nat.and_one_is_mod j
  have hdlt : j / 2 < 2 := by omega
  have hmlt : j % 2 < 2 := by omega
  rw [hj2, hj1]
  unfold replaceBits
  apply Nat.eq_of_testBit_eq
  intro k
  rw [Nat.testBit_lor, Nat.testBit_lor, Nat.testBit_ldiff, Nat.testBit_ldiff,
    Nat.one_shiftLeft, Nat.one_shiftLeft, Nat.testBit_two_pow, Nat.testBit_two_pow,
    Nat.testBit_shiftLeft, Nat.testBit_shiftLeft,
    testBit_setBit _ q0 (j / 2) hdlt k, testBit_setBit _ q1 (j % 2) hmlt k]
  have hbit0 : ∀ m : Nat, m < 2 → m.testBit 0 = decide (m = 1) := by
    intro m hm
    rw [Nat.testBit_to_div_mod]
    simp only [pow_zero, Nat.div_one]
    rw [Nat.mod_eq_of_lt hm]
  have hbitpos : ∀ m k : Nat, m < 2 → 0 < k → m.testBit k = false := by
    intro m k hm hk
    exact Nat.testBit_eq_false_of_lt (lt_of_lt_of_le hm (by
      calc (2 : Nat) = 2 ^ 1 := (pow_one 2).symm
        _ ≤ 2 ^ k := Nat.pow_le_pow_right (by omega) (by omega)))
  by_cases h0 : k = q0
  · have hq1k : q1 ≠ k := fun h => hq (h0 ▸ h.symm)
    rw [if_pos h0]
    have e1 : (j / 2).testBit (k - q0) = decide (j / 2 = 1) := by
      rw [h0, Nat.sub_self, hbit0 (j / 2) hdlt]
    have e3 : (decide (k ≥ q1) && (j % 2).testBit (k - q1)) = false := by
      rcases lt_trichotomy k q1 with h | h | h
      · simp [Nat.not_le.mpr h]
      · exact absurd h.symm hq1k
      · rw [hbitpos (j % 2) (k - q1) hmlt (by omega)]
        simp
    rw [e1, e3]
    have hge : k ≥ q0 := Nat.le_of_eq h0.symm
    have hq0k : q0 = k := h0.symm
    simp [hq1k, hge, hq0k]
  · by_cases h1 : k = q1
    · have hq0k : q0 ≠ k := fun h => h0 h.symm
      rw [if_neg h0, if_pos h1]
      have e1 : (j % 2).testBit (k - q1) = decide (j % 2 = 1) := by
        rw [h1, Nat.sub_self, hbit0 (j % 2) hmlt]
      have e2 : (decide (k ≥ q0) && (j / 2).testBit (k - q0)) = false := by
        rcases lt_trichotomy k q0 with h | h | h
        · simp [Nat.not_le.mpr h]
        · exact absurd h.symm hq0k
        · rw [hbitpos (j / 2) (k - q0) hdlt (by omega)]
          simp
      rw [e1, e2]
      have hge : k ≥ q1 := Nat.le_of_eq h1.symm
      have hq1k : q1 = k := h1.symm
      simp [hq0k, hge, hq1k]
    · have hq0k : q0 ≠ k := fun h => h0 h.symm
      have hq1k : q1 ≠ k := fun h => h1 h.symm
      rw [if_neg h0, if_neg h1]
      have e2 : (decide (k ≥ q0) && (j / 2).testBit (k - q0)) = false := by
        rcases lt_trichotomy k q0 with h | h | h
        · simp [Nat.not_le.mpr h]
        · exact absurd h.symm hq0k
        · rw [hbitpos (j / 2) (k - q0) hdlt (by omega)]
          simp
      have e3 : (decide (k ≥ q1) && (j % 2).testBit (k - q1)) = false := by
        rcases lt_trichotomy k q1 with h | h | h
        · simp [Nat.not_le.mpr h]
        · exact absurd h.symm hq1k
        · rw [hbitpos (j % 2) (k - q1) hmlt (by omega)]
          simp
      rw [e2, e3]
      simp [hq0k, hq1k]

theorem setBit_bitAt_self (x t : Nat) : setBit x t (bitAt x t) = x := by
  apply Nat.eq_of_testBit_eq
  intro j
  rw [testBit_setBit x t (bitAt x t) (bitAt_lt_two x t) j]
  by_cases h : j = t
  · rw [if_pos h, h, ← testBit_eq_decide_bitAt]
  · rw [if_neg h]

theorem bitAt_setBit_same (x t b : Nat) (hb : b < 2) : bitAt (setBit x t b) t = b := by
  apply bitAt_eq_of_testBit hb
  rw [testBit_setBit x t b hb t, if_pos rfl]

theorem bitAt_setBit_other (x t t' b : Nat) (hb : b < 2) (h : t ≠ t') :
    bitAt (setBit x t' b) t = bitAt x t := by
  apply bitAt_eq_of_testBit (bitAt_lt_two x t)
  rw [testBit_setBit x t' b hb t, if_neg h, testBit_eq_decide_bitAt]

theorem bitAt_replaceBits_q0 (x q0 q1 c : Nat) (hc : c < 4) :
    bitAt (replaceBits x q0 q1 c) q0 = c / 2 := by
  unfold replaceBits
  exact bitAt_setBit_same _ q0 (c / 2) (by omega)

theorem bitAt_replaceBits_q1 (x q0 q1 c : Nat) (hc : c < 4) (hq : q0 ≠ q1) :
    bitAt (replaceBits x q0 q1 c) q1 = c % 2 := by
  unfold replaceBits
  rw [bitAt_setBit_other _ q1 q0 (c / 2) (by omega) (fun h => hq h.symm)]
  exact bitAt_setBit_same _ q1 (c % 2) (by omega)

theorem replaceBits_replaceBits (x q0 q1 c c' : Nat) (hc : c < 4) (hc' : c' < 4) :
    replaceBits (replaceBits x q0 q1 c) q0 q1 c' = replaceBits x q0 q1 c' := by
  unfold replaceBits
  apply Nat.eq_of_testBit_eq
  intro k
  rw [testBit_setBit _ q0 _ (by omega) k, testBit_setBit _ q0 _ (by omega) k]
  by_cases h0 : k = q0
  · rw [if_pos h0, if_pos h0]
  · rw [if_neg h0, if_neg h0,
      testBit_setBit _ q1 _ (by omega) k, testBit_setBit _ q1 _ (by omega) k]
    by_cases h1 : k = q1
    · rw [if_pos h1, if_pos h1]
    · rw [if_neg h1, if_neg h1, testBit_setBit _ q0 _ (by omega) k, if_neg h0,
        testBit_setBit _ q1 _ (by omega) k, if_neg h1]

theorem replaceBits_self (x q0 q1 : Nat) :
    replaceBits x q0 q1 (2 * bitAt x q0 + bitAt x q1) = x := by
  have h0 : bitAt x q0 < 2 := bitAt_lt_two x q0
  have h1 : bitAt x q1 < 2 := bitAt_lt_two x q1
  unfold replaceBits
  have hc2 : (2 * bitAt x q0 + bitAt x q1) % 2 = bitAt x q1 := by omega
  have hc1 : (2 * bitAt x q0 + bitAt x q1) / 2 = bitAt x q0 := by omega
  rw [hc2, hc1, setBit_bitAt_self, setBit_bitAt_self]

theorem setBit_lt {x t b n : Nat} (hx : x < 2 ^ n) (ht : t < n) (hb : b < 2) :
    setBit x t b < 2 ^ n := by
  unfold setBit
  obtain ⟨m, hm⟩ : ∃ m, n = (t + 1) + m := ⟨n - (t + 1), by omega⟩
  subst hm
  have hlo : x % 2 ^ t < 2 ^ t := Nat.mod_lt _ (Nat.pos_pow_of_pos _ (by omega))
  have hhi : x / 2 ^ (t + 1) < 2 ^ m := by
    rw [Nat.div_lt_iff_lt_mul (Nat.pos_pow_of_pos _ (by omega))]
    calc x < 2 ^ (t + 1 + m) := hx
      _ = 2 ^ m * 2 ^ (t + 1) := by rw [pow_add]; ring
  have h1 : x % 2 ^ t + b * 2 ^ t < 2 ^ (t + 1) := by
    have : b * 2 ^ t ≤ 1 * 2 ^ t := Nat.mul_le_mul_right _ (by omega)
    rw [pow_succ]
    omega
  calc x % 2 ^ t + b * 2 ^ t + 2 ^ (t + 1) * (x / 2 ^ (t + 1))
      < 2 ^ (t + 1) + 2 ^ (t + 1) * (x / 2 ^ (t + 1)) := by omega
    _ = 2 ^ (t + 1) * (x / 2 ^ (t + 1) + 1) := by ring
    _ ≤ 2 ^ (t + 1) * 2 ^ m := Nat.mul_le_mul_left _ (by omega)
    _ = 2 ^ (t + 1 + m) := by rw [← pow_add]

theorem replaceBits_lt {x q0 q1 c n : Nat} (hx : x < 2 ^ n) (h0 : q0 < n)
    (h1 : q1 < n) (hc : c < 4) : replaceBits x q0 q1 c < 2 ^ n := by
  unfold replaceBits
  exact setBit_lt (setBit_lt hx h1 (by omega)) h0 (by omega)

/-! List access helpers. -/

theorem getD_map_range {α : Type} (f : Nat → α) (d : α) {n i : Nat} (hi : i < n) :
    ((List.range n).map f).getD i d = f i := by
  rw [List.getD_eq_getElem?_getD, List.getElem?_map, List.getElem?_range hi]
  rfl

theorem getD_map_re (l : List Cx) (k : Nat) :
    (l.map Cx.re).getD k 0 = (l.getD k 0).re := by
  rw [List.getD_eq_getElem?_getD, List.getElem?_map, List.getD_eq_getElem?_getD]
  cases l[k]? <;> simp

theorem getD_map_im (l : List Cx) (k : Nat) :
    (l.map Cx.im).getD k 0 = (l.getD k 0).im := by
  rw [List.getD_eq_getElem?_getD, List.getElem?_map, List.getD_eq_getElem?_getD]
  cases l[k]? <;> simp

theorem list_ext_getD {l1 l2 : List Cx} (hlen : l1.length = l2.length)
    (h : ∀ i, i < l1.length → l1.getD i 0 = l2.getD i 0) : l1 = l2 := by
  apply List.ext_getElem hlen
  intro i h1 h2
  have h3 := h i h1
  rw [List.getD_eq_getElem?_getD, List.getD_eq_getElem?_getD,
    List.getElem?_eq_getElem h1, List.getElem?_eq_getElem h2] at h3
  simpa using h3

theorem range_two : List.range 2 = [0, 1] := by decide

theorem range_four : List.range 4 = [0, 1, 2, 3] := by decide

/-! Characterization of the gate applicators. -/

theorem apply_single_length (state : List Cx) (gate : Nat → Nat → Cx)
    (target num_qubits : Nat) (use_gpu : Bool) :
    (apply_single_qubit_gate state gate target num_qubits use_gpu).length = 2 ^ num_qubits := by
  cases use_gpu <;> simp [apply_single_qubit_gate, Nat.one_shiftLeft]

theorem apply_two_length (state : List Cx) (gate : Nat → Nat → Cx)
    (targets : List Nat) (num_qubits : Nat) :
    (apply_two_qubit_gate state gate targets num_qubits).length = 2 ^ num_qubits := by
  simp [apply_two_qubit_gate, Nat.one_shiftLeft]

theorem apply_single_host_getD_raw (state : List Cx) (gate : Nat → Nat → Cx)
    (t n : Nat) {i : Nat} (hi : i < 2 ^ n) :
    (apply_single_qubit_gate state gate t n false).getD i 0 =
      (List.range 2).foldl (fun acc j =>
        acc + gate ((i >>> t) &&& 1) j *
          state.getD ((Nat.ldiff i (1 <<< t)) ||| (j <<< t)) 0) 0 := by
  have h1 : apply_single_qubit_gate state gate t n false =
      (List.range (1 <<< n)).map (fun i =>
        (List.range 2).foldl (fun acc j =>
          acc + gate ((i >>> t) &&& 1) j *
            state.getD ((Nat.ldiff i (1 <<< t)) ||| (j <<< t)) 0) 0) := rfl
  rw [h1, Nat.one_shiftLeft n, getD_map_range _ _ hi]

/-- Pointwise description of the host (CPU) single-qubit sweep, in the
arithmetic statement vocabulary. -/
theorem apply_single_host_getD (state : List Cx) (gate : Nat → Nat → Cx)
    (t n : Nat) {i : Nat} (hi : i < 2 ^ n) :
    (apply_single_qubit_gate state gate t n false).getD i 0 =
      gate (bitAt i t) 0 * state.getD (setBit i t 0) 0 +
      gate (bitAt i t) 1 * state.getD (setBit i t 1) 0 := by
  rw [apply_single_host_getD_raw state gate t n hi, range_two]
  simp only [List.foldl_cons, List.foldl_nil]
  rw [single_source_eq i t 0 (by omega), single_source_eq i t 1 (by omega),
    Nat.and_one_is_mod, Nat.shiftRight_eq_div_pow, Cx.zero_add]
  rfl

theorem apply_single_gpu_getD (state : List Cx) (gate : Nat → Nat → Cx)
    (t n : Nat) {i : Nat} (hi : i < 2 ^ n) :
    (apply_single_qubit_gate state gate t n true).getD i 0 =
      ⟨apply_single_qubit_gate_kernel_re (state.map Cx.re) (state.map Cx.im)
          [(gate 0 0).re, (gate 0 1).re, (gate 1 0).re, (gate 1 1).re]
          [(gate 0 0).im, (gate 0 1).im, (gate 1 0).im, (gate 1 1).im] t i,
        apply_single_qubit_gate_kernel_im (state.map Cx.re) (state.map Cx.im)
          [(gate 0 0).re, (gate 0 1).re, (gate 1 0).re, (gate 1 1).re]
          [(gate 0 0).im, (gate 0 1).im, (gate 1 0).im, (gate 1 1).im] t i⟩ := by
  have h1 : apply_single_qubit_gate state gate t n true =
      (List.range (1 <<< n)).map (fun i2 =>
        (⟨((List.range (1 <<< n)).map (fun i3 =>
              apply_single_qubit_gate_kernel_re (state.map Cx.re) (state.map Cx.im)
                [(gate 0 0).re, (gate 0 1).re, (gate 1 0).re, (gate 1 1).re]
                [(gate 0 0).im, (gate 0 1).im, (gate 1 0).im, (gate 1 1).im] t i3)).getD i2 0,
          ((List.range (1 <<< n)).map (fun i3 =>
              apply_single_qubit_gate_kernel_im (state.map Cx.re) (state.map Cx.im)
                [(gate 0 0).re, (gate 0 1).re, (gate 1 0).re, (gate 1 1).re]
                [(gate 0 0).im, (gate 0 1).im, (gate 1 0).im, (gate 1 1).im] t i3)).getD i2 0⟩ : Cx)) := rfl
  rw [h1, Nat.one_shiftLeft n, getD_map_range _ _ hi]
  congr 1 <;> exact getD_map_range _ _ hi

theorem optionMap_getD_re (o : Option Cx) : (Option.map Cx.re o).getD 0 = (o.getD 0).re := by
  cases o <;> simp

theorem optionMap_getD_im (o : Option Cx) : (Option.map Cx.im o).getD 0 = (o.getD 0).im := by
  cases o <;> simp

theorem gpu_entry_eq_cpu_entry (state : List Cx) (gate : Nat → Nat → Cx) (t i : Nat) :
    (⟨apply_single_qubit_gate_kernel_re (state.map Cx.re) (state.map Cx.im)
          [(gate 0 0).re, (gate 0 1).re, (gate 1 0).re, (gate 1 1).re]
          [(gate 0 0).im, (gate 0 1).im, (gate 1 0).im, (gate 1 1).im] t i,
        apply_single_qubit_gate_kernel_im (state.map Cx.re) (state.map Cx.im)
          [(gate 0 0).re, (gate 0 1).re, (gate 1 0).re, (gate 1 1).re]
          [(gate 0 0).im, (gate 0 1).im, (gate 1 0).im, (gate 1 1).im] t i⟩ : Cx) =
      (List.range 2).foldl (fun acc j =>
        acc + gate ((i >>> t) &&& 1) j *
          state.getD ((Nat.ldiff i (1 <<< t)) ||| (j <<< t)) 0) 0 := by
  unfold apply_single_qubit_gate_kernel_re apply_single_qubit_gate_kernel_im
  rw [range_two]
  simp only [List.foldl_cons, List.foldl_nil]
  have hb : (i >>> t) &&& 1 = 0 ∨ (i >>> t) &&& 1 = 1 := by
    rw [Nat.and_one_is_mod]
    omega
  rcases hb with hb | hb <;>
    (rw [hb]
     ext <;>
       simp [List.getD_cons_zero, List.getD_cons_succ, getD_map_re, getD_map_im,
         optionMap_getD_re, optionMap_getD_im])

theorem apply_two_getD_raw (state : List Cx) (gate : Nat → Nat → Cx)
    (q0 q1 n : Nat) {i : Nat} (hi : i < 2 ^ n) :
    (apply_two_qubit_gate state gate [q0, q1] n).getD i 0 =
      (List.range 4).foldl (fun acc j =>
        acc + gate (((i >>> q0) &&& 1) <<< 1 ||| ((i >>> q1) &&& 1)) j *
          state.getD ((Nat.ldiff (Nat.ldiff i (1 <<< q0)) (1 <<< q1))
            ||| ((j >>> 1) <<< q0) ||| ((j &&& 1) <<< q1)) 0) 0 := by
  have h1 : apply_two_qubit_gate state gate [q0, q1] n =
      (List.range (1 <<< n)).map (fun i =>
        (List.range 4).foldl (fun acc j =>
          acc + gate (((i >>> q0) &&& 1) <<< 1 ||| ((i >>> q1) &&& 1)) j *
            state.getD ((Nat.ldiff (Nat.ldiff i (1 <<< q0)) (1 <<< q1))
              ||| ((j >>> 1) <<< q0) ||| ((j &&& 1) <<< q1)) 0) 0) := rfl
  rw [h1, Nat.one_shiftLeft n, getD_map_range _ _ hi]

theorem row_index_eq (i q0 q1 : Nat) :
    ((i >>> q0) &&& 1) <<< 1 ||| ((i >>> q1) &&& 1) = 2 * bitAt i q0 + bitAt i q1 := by
  have h0 : (i >>> q0) &&& 1 = bitAt i q0 := by
    rw [Nat.and_one_is_mod, Nat.shiftRight_eq_div_pow]
    rfl
  have h1 : (i >>> q1) &&& 1 = bitAt i q1 := by
    rw [Nat.and_one_is_mod, Nat.shiftRight_eq_div_pow]
    rfl
  rw [h0, h1]
  have hb0 : bitAt i q0 < 2 := bitAt_lt_two i q0
  have hb1 : bitAt i q1 < 2 := bitAt_lt_two i q1
  rcases (by omega : bitAt i q0 = 0 ∨ bitAt i q0 = 1) with h | h <;>
    rcases (by omega : bitAt i q1 = 0 ∨ bitAt i q1 = 1) with h2 | h2 <;>
    rw [h, h2] <;> rfl

/-- Pointwise description of the two-qubit sweep, in the arithmetic
statement vocabulary. -/
theorem apply_two_getD (state : List Cx) (gate : Nat → Nat → Cx)
    (q0 q1 n : Nat) (hq : q0 ≠ q1) {i : Nat} (hi : i < 2 ^ n) :
    (apply_two_qubit_gate state gate [q0, q1] n).getD i 0 =
      gate (2 * bitAt i q0 + bitAt i q1) 0 * state.getD (replaceBits i q0 q1 0) 0 +
      gate (2 * bitAt i q0 + bitAt i q1) 1 * state.getD (replaceBits i q0 q1 1) 0 +
      gate (2 * bitAt i q0 + bitAt i q1) 2 * state.getD (replaceBits i q0 q1 2) 0 +
      gate (2 * bitAt i q0 + bitAt i q1) 3 * state.getD (replaceBits i q0 q1 3) 0 := by
  rw [apply_two_getD_raw state gate q0 q1 n hi, range_four]
  simp only [List.foldl_cons, List.foldl_nil]
  rw [two_source_eq i q0 q1 0 hq (by omega), two_source_eq i q0 q1 1 hq (by omega),
    two_source_eq i q0 q1 2 hq (by omega), two_source_eq i q0 q1 3 hq (by omega),
    row_index_eq, Cx.zero_add]

/-! Permutation gate matrices (CNOT, SWAP) and the involution property. -/

theorem apply_two_perm_getD (state : List Cx) (G : Nat → Nat → Cx) (σ : Nat → Nat)
    (hG : ∀ r c, r < 4 → c < 4 → G r c = if c = σ r then 1 else 0)
    (hσ : ∀ r, r < 4 → σ r < 4)
    (q0 q1 n : Nat) (hq : q0 ≠ q1) {i : Nat} (hi : i < 2 ^ n) :
    (apply_two_qubit_gate state G [q0, q1] n).getD i 0 =
      state.getD (replaceBits i q0 q1 (σ (2 * bitAt i q0 + bitAt i q1))) 0 := by
  rw [apply_two_getD state G q0 q1 n hq hi]
  set r := 2 * bitAt i q0 + bitAt i q1 with hr
  have hrlt : r < 4 := by
    have := bitAt_lt_two i q0
    have := bitAt_lt_two i q1
    omega
  rw [hG r 0 hrlt (by omega), hG r 1 hrlt (by omega),
    hG r 2 hrlt (by omega), hG r 3 hrlt (by omega)]
  have hs := hσ r hrlt
  rcases (by omega : σ r = 0 ∨ σ r = 1 ∨ σ r = 2 ∨ σ r = 3) with h | h | h | h <;>
    rw [h] <;> simp

theorem apply_two_perm_involution (G : Nat → Nat → Cx) (σ : Nat → Nat)
    (hG : ∀ r c, r < 4 → c < 4 → G r c = if c = σ r then 1 else 0)
    (hσ : ∀ r, r < 4 → σ r < 4) (hσσ : ∀ r, r < 4 → σ (σ r) = r)
    (state : List Cx) (q0 q1 n : Nat) (hq : q0 ≠ q1) (h0 : q0 < n) (h1 : q1 < n)
    (hlen : state.length = 2 ^ n) :
    apply_two_qubit_gate (apply_two_qubit_gate state G [q0, q1] n) G [q0, q1] n = state := by
  apply list_ext_getD
  · rw [apply_two_length, hlen]
  intro i hilen
  rw [apply_two_length] at hilen
  rw [apply_two_perm_getD _ G σ hG hσ q0 q1 n hq hilen]
  set r := 2 * bitAt i q0 + bitAt i q1 with hr
  have hrlt : r < 4 := by
    have := bitAt_lt_two i q0
    have := bitAt_lt_two i q1
    omega
  have hσr : σ r < 4 := hσ r hrlt
  have hidx : replaceBits i q0 q1 (σ r) < 2 ^ n := replaceBits_lt hilen h0 h1 hσr
  rw [apply_two_perm_getD state G σ hG hσ q0 q1 n hq hidx]
  rw [bitAt_replaceBits_q0 i q0 q1 (σ r) hσr, bitAt_replaceBits_q1 i q0 q1 (σ r) hσr hq]
  have hrow : 2 * (σ r / 2) + σ r % 2 = σ r := by omega
  rw [hrow, hσσ r hrlt, replaceBits_replaceBits i q0 q1 (σ r) r hσr hrlt, hr,
    replaceBits_self]

/-! Claim theorems C1, C2, C3, C8 (single- and two-qubit index mapping,
CPU/GPU equivalence, involution). -/

/-- C1: for every state vector of length `2^n`, every 2×2 gate matrix, and
every target qubit `t < n`, the host-strategy single-qubit application
(`apply_single_qubit_gate` with `use_gpu = false`) returns a vector whose
amplitude at each output index `i < 2^n` equals
`gate[b][0] · state[i with bit t cleared] + gate[b][1] · state[i with bit t set]`,
where `b` is bit `t` of `i`. -/
theorem C1_single_qubit_host_formula (state : List Cx) (gate : Nat → Nat → Cx)
    (t n : Nat) (ht : t < n) (hlen : state.length = 2 ^ n) :
    ∀ i, i < 2 ^ n →
      (apply_single_qubit_gate state gate t n false).getD i 0 =
        gate (bitAt i t) 0 * state.getD (setBit i t 0) 0 +
        gate (bitAt i t) 1 * state.getD (setBit i t 1) 0 :=
  fun _ hi => apply_single_host_getD state gate t n hi

theorem C1_single_qubit_host_formula_witness :
    (0 : Nat) < 1 ∧ ([(1 : Cx), 0] : List Cx).length = 2 ^ 1 ∧ (0 : Nat) < 2 ^ 1 ∧
      (apply_single_qubit_gate [(1 : Cx), 0] pauli_x 0 1 false).getD 0 0 =
        pauli_x (bitAt 0 0) 0 * ([(1 : Cx), 0] : List Cx).getD (setBit 0 0 0) 0 +
        pauli_x (bitAt 0 0) 1 * ([(1 : Cx), 0] : List Cx).getD (setBit 0 0 1) 0 :=
  ⟨by decide, by decide, by decide,
    C1_single_qubit_host_formula [(1 : Cx), 0] pauli_x 0 1 (by decide) (by decide)
      0 (by decide)⟩

/-- C2: for identical input state, 2×2 gate, target qubit and qubit count, the
accelerator (GPU) strategy of `apply_single_qubit_gate` and the host (CPU)
strategy produce the same amplitude list — here proved as exact equality of
the exact-arithmetic models, which in particular means amplitude-by-amplitude
agreement within any floating-point tolerance such as `1e-6`. -/
theorem C2_gpu_strategy_matches_host (state : List Cx) (gate : Nat → Nat → Cx)
    (target num_qubits : Nat) :
    apply_single_qubit_gate state gate target num_qubits true =
      apply_single_qubit_gate state gate target num_qubits false := by
  apply list_ext_getD
  · rw [apply_single_length, apply_single_length]
  intro i hi
  rw [apply_single_length] at hi
  rw [apply_single_gpu_getD state gate target num_qubits hi,
    gpu_entry_eq_cpu_entry state gate target i,
    apply_single_host_getD_raw state gate target num_qubits hi]

/-- C3: for every state vector of length `2^n`, every 4×4 gate matrix and every
ordered pair `(q0, q1)` of distinct qubit indices below `n`, the two-qubit
application returns a vector whose amplitude at each output index `i < 2^n` is
`Σ_{c<4} gate[r][c] · state[i with bits q0,q1 replaced by the pattern c]`,
where `r = (bit q0 of i) << 1 | (bit q1 of i)` and the high bit of `c` goes to
`q0`, the low bit to `q1`. -/
theorem C3_two_qubit_formula (state : List Cx) (gate : Nat → Nat → Cx)
    (q0 q1 n : Nat) (hq : q0 ≠ q1) (h0 : q0 < n) (h1 : q1 < n)
    (hlen : state.length = 2 ^ n) :
    ∀ i, i < 2 ^ n →
      (apply_two_qubit_gate state gate [q0, q1] n).getD i 0 =
        gate (2 * bitAt i q0 + bitAt i q1) 0 * state.getD (replaceBits i q0 q1 0) 0 +
        gate (2 * bitAt i q0 + bitAt i q1) 1 * state.getD (replaceBits i q0 q1 1) 0 +
        gate (2 * bitAt i q0 + bitAt i q1) 2 * state.getD (replaceBits i q0 q1 2) 0 +
        gate (2 * bitAt i q0 + bitAt i q1) 3 * state.getD (replaceBits i q0 q1 3) 0 :=
  fun _ hi => apply_two_getD state gate q0 q1 n hq hi

theorem C3_two_qubit_formula_witness :
    (0 : Nat) ≠ 1 ∧ (0 : Nat) < 2 ∧ (1 : Nat) < 2 ∧
      ([(1 : Cx), 0, 0, 0] : List Cx).length = 2 ^ 2 ∧ (1 : Nat) < 2 ^ 2 ∧
      (apply_two_qubit_gate [(1 : Cx), 0, 0, 0] cnot [0, 1] 2).getD 1 0 =
        cnot (2 * bitAt 1 0 + bitAt 1 1) 0 *
            ([(1 : Cx), 0, 0, 0] : List Cx).getD (replaceBits 1 0 1 0) 0 +
        cnot (2 * bitAt 1 0 + bitAt 1 1) 1 *
            ([(1 : Cx), 0, 0, 0] : List Cx).getD (replaceBits 1 0 1 1) 0 +
        cnot (2 * bitAt 1 0 + bitAt 1 1) 2 *
            ([(1 : Cx), 0, 0, 0] : List Cx).getD (replaceBits 1 0 1 2) 0 +
        cnot (2 * bitAt 1 0 + bitAt 1 1) 3 *
            ([(1 : Cx), 0, 0, 0] : List Cx).getD (replaceBits 1 0 1 3) 0 :=
  ⟨by decide, by decide, by decide, by decide, by decide,
    C3_two_qubit_formula [(1 : Cx), 0, 0, 0] cnot 0 1 2 (by decide) (by decide)
      (by decide) (by decide) 1 (by decide)⟩

/-- C8: for every state vector of length `2^n` and every pair of distinct
in-range qubit indices, applying the SWAP gate matrix twice with the same pair,
or the CNOT gate matrix twice with the same control and target, returns the
original state vector — here proved as exact equality of the exact-arithmetic
models (in particular the result is within any floating-point tolerance of the
original). -/
theorem C8_swap_cnot_involution (state : List Cx) (q0 q1 n : Nat) (hq : q0 ≠ q1)
    (h0 : q0 < n) (h1 : q1 < n) (hlen : state.length = 2 ^ n) :
    apply_two_qubit_gate (apply_two_qubit_gate state swap [q0, q1] n) swap [q0, q1] n
        = state ∧
    apply_two_qubit_gate (apply_two_qubit_gate state cnot [q0, q1] n) cnot [q0, q1] n
        = state := by
  constructor
  · apply apply_two_perm_involution swap
      (fun r => if r = 1 then 2 else if r = 2 then 1 else r) ?_ ?_ ?_ state q0 q1 n hq h0 h1 hlen
    · intro r c hr hc
      interval_cases r <;> interval_cases c <;> rfl
    · intro r hr
      interval_cases r <;> norm_num
    · intro r hr
      interval_cases r <;> rfl
  · apply apply_two_perm_involution cnot
      (fun r => if r = 2 then 3 else if r = 3 then 2 else r) ?_ ?_ ?_ state q0 q1 n hq h0 h1 hlen
    · intro r c hr hc
      interval_cases r <;> interval_cases c <;> rfl
    · intro r hr
      interval_cases r <;> norm_num
    · intro r hr
      interval_cases r <;> rfl

theorem C8_swap_cnot_involution_witness :
    (0 : Nat) ≠ 1 ∧ (0 : Nat) < 2 ∧ (1 : Nat) < 2 ∧
      ([(1 : Cx), 0, 0, 0] : List Cx).length = 2 ^ 2 ∧
      (apply_two_qubit_gate (apply_two_qubit_gate [(1 : Cx), 0, 0, 0] swap [0, 1] 2)
          swap [0, 1] 2 = [(1 : Cx), 0, 0, 0] ∧
       apply_two_qubit_gate (apply_two_qubit_gate [(1 : Cx), 0, 0, 0] cnot [0, 1] 2)
          cnot [0, 1] 2 = [(1 : Cx), 0, 0, 0]) :=
  ⟨by decide, by decide, by decide, by decide,
    C8_swap_cnot_involution [(1 : Cx), 0, 0, 0] 0 1 2 (by decide) (by decide)
      (by decide) (by decide)⟩

/-! Initial state, run fold, and the length invariant. -/

theorem initState_length (n : Nat) : (initState n).length = 2 ^ n := by
  simp [initState, Nat.one_shiftLeft]

theorem gate_apply_length (g : Gate) (state : List Cx) (targets : List Nat)
    (num_qubits : Nat) (use_gpu : Bool) (res : List Cx)
    (h : Gate.apply g state targets num_qubits use_gpu = some res) :
    res.length = 2 ^ num_qubits := by
  cases g <;> rcases targets with _ | ⟨t0, _ | ⟨t1, rest⟩⟩ <;>
    simp [Gate.apply] at h <;>
    rw [← h] <;>
    first
      | apply apply_single_length
      | apply apply_two_length

theorem run_length (c : Circuit) (ug : Bool) (s : List Cx)
    (h : Circuit.run c ug = some s) : s.length = 2 ^ c.num_qubits := by
  unfold Circuit.run at h
  suffices haux : ∀ (gs : List (Gate × List Nat)) (st s' : List Cx),
      gs.foldlM (fun state gt => Gate.apply gt.1 state gt.2 c.num_qubits ug) st = some s' →
      s'.length = 2 ^ c.num_qubits ∨ s' = st by
    rcases haux c.gates (initState c.num_qubits) s h with h2 | h2
    · exact h2
    · rw [h2, initState_length]
  intro gs
  induction gs with
  | nil =>
    intro st s' h2
    rw [List.foldlM_nil] at h2
    right
    exact (Option.some_inj.mp h2).symm
  | cons g rest ih =>
    intro st s' h2
    rw [List.foldlM_cons] at h2
    rcases Option.bind_eq_some.mp h2 with ⟨st2, hst2, hrest⟩
    rcases ih st2 s' hrest with h3 | h3
    · left
      exact h3
    · left
      rw [h3]
      exact gate_apply_length g.1 st g.2 c.num_qubits ug st2 hst2

/-- C9: for every input state vector of length `2^num_qubits` and in-range
targets, both `apply_single_qubit_gate` (either strategy, in particular the
host path) and `apply_two_qubit_gate` return a vector of length exactly
`2^num_qubits`; consequently every successful `Circuit.run` returns a state of
length `2^num_qubits` — the length is an invariant of gate application. -/
theorem C9_length_invariant (state : List Cx) (gate gate4 : Nat → Nat → Cx)
    (targets : List Nat) (target num_qubits : Nat) (use_gpu : Bool)
    (hlen : state.length = 2 ^ num_qubits) (ht : target < num_qubits)
    (htargets : ∀ t ∈ targets, t < num_qubits) :
    (apply_single_qubit_gate state gate target num_qubits use_gpu).length = 2 ^ num_qubits ∧
    (apply_two_qubit_gate state gate4 targets num_qubits).length = 2 ^ num_qubits ∧
    ∀ (c : Circuit) (ug : Bool) (s : List Cx),
      Circuit.run c ug = some s → s.length = 2 ^ c.num_qubits :=
  ⟨apply_single_length state gate target num_qubits use_gpu,
   apply_two_length state gate4 targets num_qubits,
   fun c ug s h => run_length c ug s h⟩

theorem C9_length_invariant_witness :
    ([(1 : Cx), 0] : List Cx).length = 2 ^ 1 ∧ (0 : Nat) < 1 ∧
    (∀ t ∈ ([0] : List Nat), t < 1) ∧
    Circuit.run ⟨1, []⟩ false = some (initState 1) ∧
    (initState 1).length = 2 ^ (1 : Nat) :=
  ⟨by decide, by decide, by decide, rfl,
    (C9_length_invariant [(1 : Cx), 0] pauli_x pauli_x [0] 0 1 false (by decide)
        (by decide) (by decide)).2.2 ⟨1, []⟩ false (initState 1) rfl⟩

/-- C10: `Gate.apply` reads `targets[0]` for the arity-1 gates and `targets[0]`,
`targets[1]` for `CNOT`/`SWAP` without length checks; under the instruction
invariant that the target-list length equals the gate's arity, every such
index is in bounds and the panic branch (modelled as `none`) is unreachable:
the application always returns `some`. -/
theorem C10_targets_access_safe (g : Gate) (state : List Cx) (targets : List Nat)
    (num_qubits : Nat) (use_gpu : Bool) (h : targets.length = g.arity) :
    (∀ k, k < g.arity → k < targets.length) ∧
    (Gate.apply g state targets num_qubits use_gpu).isSome = true := by
  refine ⟨fun k hk => by omega, ?_⟩
  cases g <;> rcases targets with _ | ⟨t0, _ | ⟨t1, rest⟩⟩ <;>
    simp [Gate.arity] at h <;> simp [Gate.apply]

theorem C10_targets_access_safe_witness :
    ([0, 1] : List Nat).length = Gate.arity Gate.CNOT ∧
    (∀ k, k < Gate.arity Gate.CNOT → k < ([0, 1] : List Nat).length) ∧
    (Gate.apply Gate.CNOT [(1 : Cx), 0, 0, 0] [0, 1] 2 false).isSome = true :=
  ⟨by decide,
   (C10_targets_access_safe Gate.CNOT [(1 : Cx), 0, 0, 0] [0, 1] 2 false (by decide)).1,
   (C10_targets_access_safe Gate.CNOT [(1 : Cx), 0, 0, 0] [0, 1] 2 false (by decide)).2⟩

/-- C4: for all `n ≥ 1`, the initial state constructed at the start of a run
(`initState`, from the first two lines of `Circuit::run`) is a vector of
length `2^n` whose amplitude at index `0` is `1 + 0i` and whose amplitude at
every other index is `0`. -/
theorem C4_initial_state (n : Nat) (h : 1 ≤ n) :
    (initState n).length = 2 ^ n ∧ (initState n).getD 0 0 = 1 ∧
    ∀ i, i ≠ 0 → i < 2 ^ n → (initState n).getD i 0 = 0 := by
  refine ⟨initState_length n, ?_, ?_⟩
  · unfold initState
    rw [List.getD_eq_getElem?_getD, List.getElem?_set]
    simp [Nat.one_shiftLeft, Nat.pos_pow_of_pos]
  · intro i hi hilt
    unfold initState
    rw [List.getD_eq_getElem?_getD, List.getElem?_set,
      if_neg (fun h2 : 0 = i => hi h2.symm), List.getElem?_replicate,
      if_pos (by rw [Nat.one_shiftLeft]; exact hilt)]
    rfl

theorem C4_initial_state_witness :
    (1 : Nat) ≤ 1 ∧
    ((initState 1).length = 2 ^ 1 ∧ (initState 1).getD 0 0 = 1 ∧
     ∀ i, i ≠ 0 → i < 2 ^ 1 → (initState 1).getD i 0 = 0) :=
  ⟨by decide, C4_initial_state 1 (by decide)⟩

/-- C7 counterexample: the core performs no dimension check.  `Circuit::run`
with `num_qubits = 0` succeeds (no `InvalidDimension` or any other failure)
and returns the length-1 vector `[1]`. -/
theorem C7_core_run_succeeds_at_zero : Circuit.run ⟨0, []⟩ false = some [(1 : Cx)] := rfl

/-- C7 amended: the rejection of a zero qubit count is performed by the CLI
layer (`main` returns early when the entered count is `0`), not by the core:
`Circuit.run` itself performs no dimension check and succeeds at
`num_qubits = 0`, returning the one-entry vector `[1]`. -/
theorem C7_dimension_check_in_cli :
    (∀ n, main_rejects_qubit_count n = true ↔ n = 0) ∧
    Circuit.run ⟨0, []⟩ false = some [(1 : Cx)] := by
  constructor
  · intro n
    simp [main_rejects_qubit_count]
  · rfl

/-! Probability extraction (C5, C6). -/

theorem norm_sqr_sum_nonneg (state : List Cx) : 0 ≤ norm_sqr_sum state := by
  unfold norm_sqr_sum
  apply List.sum_nonneg
  intro x hx
  rw [List.mem_map] at hx
  obtain ⟨z, _, hz⟩ := hx
  rw [← hz]
  exact Cx.normSqr_nonneg z

theorem list_sum_map_div (l : List Cx) (f : Cx → ℝ) (c : ℝ) :
    (l.map (fun a => f a / c)).sum = (l.map f).sum / c := by
  induction l with
  | nil => simp
  | cons a l ih => simp [ih, add_div]

/-- C5: on every state whose total squared norm `S = Σ|amp|²` is at or above
the degeneracy threshold `1e-12`, `compute_probabilities` returns the table
`|amp_i|² / S`; that table sums exactly to `1` (hence within any
floating-point tolerance) and has no negative entries. -/
theorem C5_probabilities_normalized (state : List Cx)
    (h : 1e-12 ≤ norm_sqr_sum state) :
    compute_probabilities state = state.map (fun amp => amp.normSqr / norm_sqr_sum state) ∧
    (compute_probabilities state).sum = 1 ∧
    ∀ p ∈ compute_probabilities state, 0 ≤ p := by
  have hS0 : 0 ≤ norm_sqr_sum state := norm_sqr_sum_nonneg state
  have hSpos : 0 < norm_sqr_sum state := lt_of_lt_of_le (by norm_num) h
  have hnot : ¬ (|norm_sqr_sum state| < 1e-12) := by
    rw [abs_of_nonneg hS0]
    exact not_lt.mpr h
  have heq : compute_probabilities state =
      state.map (fun amp => amp.normSqr / norm_sqr_sum state) := by
    unfold compute_probabilities
    rw [if_neg hnot, List.map_map]
    congr 1
    funext amp
    show (amp.divR (Real.sqrt (norm_sqr_sum state))).normSqr =
      amp.normSqr / norm_sqr_sum state
    unfold Cx.divR Cx.normSqr
    have hs : Real.sqrt (norm_sqr_sum state) * Real.sqrt (norm_sqr_sum state) =
        norm_sqr_sum state := Real.mul_self_sqrt hS0
    have hsne : Real.sqrt (norm_sqr_sum state) ≠ 0 :=
      ne_of_gt (Real.sqrt_pos.mpr hSpos)
    rw [div_mul_div_comm, div_mul_div_comm, div_add_div_same, hs]
  refine ⟨heq, ?_, ?_⟩
  · rw [heq, list_sum_map_div state Cx.normSqr (norm_sqr_sum state)]
    exact div_self (ne_of_gt hSpos)
  · intro p hp
    rw [heq, List.mem_map] at hp
    obtain ⟨amp, _, hamp⟩ := hp
    rw [← hamp]
    exact div_nonneg (Cx.normSqr_nonneg amp) hS0

theorem C5_probabilities_normalized_witness :
    (1e-12 : ℝ) ≤ norm_sqr_sum [(1 : Cx)] ∧
    (compute_probabilities [(1 : Cx)] =
        ([(1 : Cx)] : List Cx).map (fun amp => amp.normSqr / norm_sqr_sum [(1 : Cx)]) ∧
     (compute_probabilities [(1 : Cx)]).sum = 1 ∧
     ∀ p ∈ compute_probabilities [(1 : Cx)], 0 ≤ p) :=
  ⟨by norm_num [norm_sqr_sum, Cx.normSqr],
   C5_probabilities_normalized [(1 : Cx)] (by norm_num [norm_sqr_sum, Cx.normSqr])⟩

/-- C6: on every state whose total squared norm is below the fixed threshold
`1e-12`, `compute_probabilities` reports the degenerate-state condition (the
guard of the error branch holds) and returns an all-zero table of the same
length as the state, without dividing by the near-zero norm. -/
theorem C6_degenerate_state (state : List Cx) (h : norm_sqr_sum state < 1e-12) :
    reportsDegenerateState state ∧
    compute_probabilities state = List.replicate state.length 0 := by
  have hS0 : 0 ≤ norm_sqr_sum state := norm_sqr_sum_nonneg state
  have habs : |norm_sqr_sum state| < 1e-12 := by
    rw [abs_of_nonneg hS0]
    exact h
  refine ⟨habs, ?_⟩
  unfold compute_probabilities
  rw [if_pos habs]

theorem C6_degenerate_state_witness :
    norm_sqr_sum [(0 : Cx)] < 1e-12 ∧
    (reportsDegenerateState [(0 : Cx)] ∧
     compute_probabilities [(0 : Cx)] = List.replicate ([(0 : Cx)] : List Cx).length 0) :=
  ⟨by norm_num [norm_sqr_sum, Cx.normSqr],
   C6_degenerate_state [(0 : Cx)] (by norm_num [norm_sqr_sum, Cx.normSqr])⟩

end QSim
